import Mathlib

/-!
Verification development for the git-to-text repository.

Strings are modelled as lists of characters (`Str`); JavaScript string
primitives (`split`, `trim`, `startsWith`, truthiness of a string) are
modelled by explicit functions on `Str` defined below.  External
collaborators (the git client, the model HTTP endpoint, the
project-type detector) are passed in as function parameters, and the
walkers additionally return the ordered trace of `git.diff` invocations
they issue, so that claims about which comparisons are performed can be
stated.
-/

set_option maxHeartbeats 1000000

namespace GitToText

/-- Character-list model of JavaScript strings. -/
abbrev Str := List Char

/-- Convert a Lean string literal to the character-list model. -/
def str (s : String) : Str := s.data

/-! ## String primitives

JavaScript `split`, `trim` and `startsWith` are modelled on `Str`.
`splitNl` models `diff.split('\n')`, `splitMarker` models
`diff.split('diff --git')`, and `trimStr` models `String.prototype.trim`
(restricted to the ASCII whitespace characters, the only ones the diff
texts contain). -/

/-- Prepend a character to the first piece of a split result
(splits are never empty, but the `[]` case keeps the function total). -/
def consHead (c : Char) : List Str → List Str
  | [] => [[c]]
  | p :: ps => (c :: p) :: ps

/-- The newline character. -/
def nl : Char := '\n'

/-- The file-section marker `diff --git` both splitters depend on. -/
def markerL : Str := ['d', 'i', 'f', 'f', ' ', '-', '-', 'g', 'i', 't']

/-- JavaScript `s.split('\n')`: split at every newline, keeping empty pieces. -/
def splitNl : Str → List Str
  | [] => [[]]
  | c :: rest => if c = nl then [] :: splitNl rest else consHead c (splitNl rest)

/-- Fuel-driven worker for `splitMarker`; the fuel is always at least the
length of the remaining input, so the `0, s` fallback is never reached. -/
def splitMarkerGo : Nat → Str → List Str
  | _, [] => [[]]
  | 0, s => [s]
  | fuel + 1, c :: rest =>
    if markerL.isPrefixOf (c :: rest) then
      [] :: splitMarkerGo fuel ((c :: rest).drop 10)
    else
      consHead c (splitMarkerGo fuel rest)

/-- JavaScript `s.split('diff --git')`: split at every occurrence of the
marker, leftmost-first and non-overlapping. -/
def splitMarker (s : Str) : List Str := splitMarkerGo s.length s

/-- JavaScript whitespace test used by `trim` (ASCII subset). -/
def isWs (c : Char) : Bool := c = ' ' || c = '\n' || c = '\t' || c = '\r'

/-- Remove leading whitespace. -/
def trimL (s : Str) : Str := s.dropWhile isWs

/-- Remove trailing whitespace. -/
def trimR (s : Str) : Str := (s.reverse.dropWhile isWs).reverse

/-- JavaScript `s.trim()`. -/
def trimStr (s : Str) : Str := trimR (trimL s)

theorem consHead_ne_nil (c : Char) (ps : List Str) : consHead c ps ≠ [] := by
  cases ps <;> simp [consHead]

theorem splitNl_ne_nil (s : Str) : splitNl s ≠ [] := by
  cases s with
  | nil => simp [splitNl]
  | cons c rest =>
    simp only [splitNl]
    split
    · simp
    · exact consHead_ne_nil c _

theorem splitMarkerGo_fuel :
    ∀ (f₁ f₂ : Nat) (s : Str), s.length ≤ f₁ → s.length ≤ f₂ →
      splitMarkerGo f₁ s = splitMarkerGo f₂ s := by
  intro f₁
  induction f₁ with
  | zero =>
    intro f₂ s h1 _
    cases s with
    | nil => cases f₂ <;> rfl
    | cons c rest => simp at h1
  | succ f ih =>
    intro f₂ s h1 h2
    cases s with
    | nil => cases f₂ <;> rfl
    | cons c rest =>
      cases f₂ with
      | zero => simp at h2
      | succ f₂' =>
        simp only [splitMarkerGo]
        by_cases hp : markerL.isPrefixOf (c :: rest)
        · rw [if_pos hp, if_pos hp,
            ih f₂' ((c :: rest).drop 10) (by simp at h1 ⊢; omega) (by simp at h2 ⊢; omega)]
        · rw [if_neg hp, if_neg hp,
            ih f₂' rest (by simp at h1; omega) (by simp at h2; omega)]

theorem splitMarker_nil : splitMarker [] = [[]] := rfl

theorem splitMarker_marker (r : Str) :
    splitMarker (markerL ++ r) = [] :: splitMarker r := by
  show splitMarkerGo (markerL ++ r).length (markerL ++ r) = _
  have hlen : (markerL ++ r).length = r.length + 10 := by simp [markerL]
  rw [hlen]
  show splitMarkerGo (r.length + 9 + 1) ('d' :: _) = _
  rw [splitMarkerGo]
  split
  · have hdrop : (markerL ++ r).drop 10 = r := by simp [markerL]
    show [] :: splitMarkerGo (r.length + 9) ((markerL ++ r).drop 10) = _
    rw [hdrop, splitMarkerGo_fuel (r.length + 9) r.length r (by omega) le_rfl]
    rfl
  · rename_i hfalse
    exact absurd (List.isPrefixOf_iff_prefix.2 ⟨r, rfl⟩) hfalse

theorem splitMarker_cons_neg (c : Char) (rest : Str)
    (h : ¬ markerL.isPrefixOf (c :: rest)) :
    splitMarker (c :: rest) = consHead c (splitMarker rest) := by
  show splitMarkerGo (rest.length + 1) (c :: rest) = _
  rw [splitMarkerGo, if_neg h]
  rfl

theorem splitMarker_ne_nil (s : Str) : splitMarker s ≠ [] := by
  cases s with
  | nil => simp [splitMarker_nil]
  | cons c rest =>
    by_cases hp : markerL.isPrefixOf (c :: rest)
    · obtain ⟨r, hr⟩ := List.isPrefixOf_iff_prefix.1 hp
      rw [← hr, splitMarker_marker]
      simp
    · rw [splitMarker_cons_neg c rest hp]
      exact consHead_ne_nil c _

/-- `s` contains no occurrence of the marker, phrased executably through
the splitter itself. -/
def noMarkerIn (s : Str) : Prop := splitMarker s = [s]

/-- `s` contains no occurrence of the marker, phrased as absence of an
infix. -/
def markerFree (s : Str) : Prop := ¬ markerL <:+: s

theorem splitMarker_len2 : ∀ (u v : Str),
    2 ≤ (splitMarker (u ++ (markerL ++ v))).length := by
  intro u
  induction u with
  | nil =>
    intro v
    rw [List.nil_append, splitMarker_marker]
    have := splitMarker_ne_nil v
    cases hs : splitMarker v with
    | nil => exact absurd hs this
    | cons a l => simp
  | cons c u' ih =>
    intro v
    by_cases hp : markerL.isPrefixOf (c :: (u' ++ (markerL ++ v)))
    · obtain ⟨r, hr⟩ := List.isPrefixOf_iff_prefix.1 hp
      rw [List.cons_append, ← hr, splitMarker_marker]
      have := splitMarker_ne_nil r
      cases hs : splitMarker r with
      | nil => exact absurd hs this
      | cons a l => simp
    · rw [List.cons_append, splitMarker_cons_neg _ _ hp]
      have h2 := ih v
      cases hs : splitMarker (u' ++ (markerL ++ v)) with
      | nil => exact absurd hs (splitMarker_ne_nil _)
      | cons a l =>
        rw [hs] at h2
        simp [consHead] at h2 ⊢
        omega

theorem noMarkerIn_of_markerFree : ∀ (s : Str), markerFree s → noMarkerIn s := by
  intro s
  induction s with
  | nil => intro _; rfl
  | cons c rest ih =>
    intro hf
    have hp : ¬ markerL.isPrefixOf (c :: rest) := by
      intro hp
      exact hf (List.isPrefixOf_iff_prefix.1 hp).isInfix
    rw [noMarkerIn, splitMarker_cons_neg c rest hp]
    have hrest : markerFree rest := fun hinf => hf (hinf.trans (List.infix_cons rest.infix_refl))
    rw [ih hrest]
    rfl

theorem markerFree_of_noMarkerIn (s : Str) (h : noMarkerIn s) : markerFree s := by
  intro hinf
  obtain ⟨u, v, huv⟩ := hinf
  have h2 := splitMarker_len2 u v
  rw [List.append_assoc] at huv
  rw [huv, h] at h2
  simp at h2

theorem noMarkerIn_iff (s : Str) : noMarkerIn s ↔ markerFree s :=
  ⟨markerFree_of_noMarkerIn s, noMarkerIn_of_markerFree s⟩

theorem markerFree_of_infix {t s : Str} (h : t <:+: s) (hs : markerFree s) :
    markerFree t := fun hm => hs (hm.trans h)

/-- Rejoin split lines, appending a newline after each, exactly as the
segmenter's `currentChunk += line + '\n'` does. -/
def joinedNl (ls : List Str) : Str := (ls.map (· ++ [nl])).flatten

theorem joinedNl_nil : joinedNl [] = [] := rfl

theorem joinedNl_cons (l : Str) (ls : List Str) :
    joinedNl (l :: ls) = l ++ [nl] ++ joinedNl ls := by
  simp [joinedNl]

theorem joinedNl_append (a b : List Str) :
    joinedNl (a ++ b) = joinedNl a ++ joinedNl b := by
  simp [joinedNl]

theorem splitNl_cons_nl (rest : Str) : splitNl (nl :: rest) = [] :: splitNl rest := by
  simp [splitNl]

theorem splitNl_cons_neg (c : Char) (rest : Str) (h : ¬ c = nl) :
    splitNl (c :: rest) = consHead c (splitNl rest) := by
  simp [splitNl, h]

theorem joinedNl_splitNl : ∀ s : Str, joinedNl (splitNl s) = s ++ [nl] := by
  intro s
  induction s with
  | nil => rfl
  | cons c rest ih =>
    by_cases hc : c = nl
    · subst hc
      rw [splitNl_cons_nl, joinedNl_cons, ih]
      simp
    · rw [splitNl_cons_neg c rest hc]
      cases hs : splitNl rest with
      | nil => exact absurd hs (splitNl_ne_nil rest)
      | cons p ps =>
        rw [hs] at ih
        rw [joinedNl_cons] at ih
        simp only [consHead, joinedNl_cons, List.cons_append, List.append_assoc] at ih ⊢
        rw [ih]

/-- Merge two line-split results across a string concatenation: the last
line of the first run continues into the first line of the second. -/
def glue : List Str → List Str → List Str
  | [], ys => ys
  | [x], [] => [x]
  | [x], y :: ys => (x ++ y) :: ys
  | x :: xs, ys => x :: glue xs ys

theorem glue_cons_of_ne_nil (x : Str) (xs : List Str) (ys : List Str) (h : xs ≠ []) :
    glue (x :: xs) ys = x :: glue xs ys := by
  cases xs with
  | nil => exact absurd rfl h
  | cons a l => cases ys <;> rfl

theorem glue_single (x : Str) (y : Str) (ys : List Str) :
    glue [x] (y :: ys) = (x ++ y) :: ys := rfl

theorem glue_consHead (c : Char) (xs ys : List Str) (hx : xs ≠ []) (hy : ys ≠ []) :
    glue (consHead c xs) ys = consHead c (glue xs ys) := by
  cases xs with
  | nil => exact absurd rfl hx
  | cons x xs' =>
    cases ys with
    | nil => exact absurd rfl hy
    | cons y ys' =>
      cases xs' with
      | nil => simp [consHead, glue_single]
      | cons a l =>
        show glue ((c :: x) :: a :: l) (y :: ys') = consHead c (glue (x :: a :: l) (y :: ys'))
        rw [glue_cons_of_ne_nil (c :: x) (a :: l) _ (by simp),
          glue_cons_of_ne_nil x (a :: l) _ (by simp)]
        rfl

theorem splitNl_append : ∀ a b : Str, splitNl (a ++ b) = glue (splitNl a) (splitNl b) := by
  intro a
  induction a with
  | nil =>
    intro b
    cases hb : splitNl b with
    | nil => exact absurd hb (splitNl_ne_nil b)
    | cons y ys =>
      rw [List.nil_append, hb]
      rfl
  | cons c a' ih =>
    intro b
    by_cases hc : c = nl
    · subst hc
      rw [List.cons_append, splitNl_cons_nl, splitNl_cons_nl, ih]
      rw [glue_cons_of_ne_nil _ _ _ (splitNl_ne_nil a')]
    · rw [List.cons_append, splitNl_cons_neg c _ hc, splitNl_cons_neg c _ hc, ih,
        glue_consHead c _ _ (splitNl_ne_nil a') (splitNl_ne_nil b)]

theorem glue_append_of_ne_nil (a b ys : List Str) (h : b ≠ []) :
    glue (a ++ b) ys = a ++ glue b ys := by
  induction a with
  | nil => rfl
  | cons x a' ih =>
    rw [List.cons_append, glue_cons_of_ne_nil x (a' ++ b) ys (by simp [h]), ih]
    rfl

theorem splitNl_head_prefix :
    ∀ (s : Str) (p : Str) (ps : List Str), splitNl s = p :: ps → p <+: s := by
  intro s
  induction s with
  | nil =>
    intro p ps h
    simp [splitNl] at h
    simp [h.1]
  | cons c rest ih =>
    intro p ps h
    by_cases hc : c = nl
    · subst hc
      rw [splitNl_cons_nl] at h
      cases h
      simp
    · rw [splitNl_cons_neg c rest hc] at h
      cases hs : splitNl rest with
      | nil => exact absurd hs (splitNl_ne_nil rest)
      | cons q qs =>
        rw [hs] at h
        simp only [consHead] at h
        injection h with h1 h2
        subst h1
        exact (List.cons_prefix_cons).2 ⟨rfl, ih q qs hs⟩

theorem splitNl_infix_of_mem : ∀ (s : Str), ∀ p ∈ splitNl s, p <:+: s := by
  intro s
  induction s with
  | nil =>
    intro p hp
    simp [splitNl] at hp
    simp [hp]
  | cons c rest ih =>
    intro p hp
    by_cases hc : c = nl
    · subst hc
      rw [splitNl_cons_nl] at hp
      rcases List.mem_cons.1 hp with hp | hp
      · simp [hp]
      · exact (ih p hp).trans (List.infix_cons (List.infix_refl rest))
    · rw [splitNl_cons_neg c rest hc] at hp
      cases hs : splitNl rest with
      | nil => exact absurd hs (splitNl_ne_nil rest)
      | cons q qs =>
        rw [hs] at hp
        simp only [consHead] at hp
        rcases List.mem_cons.1 hp with hp | hp
        · subst hp
          exact ((List.cons_prefix_cons).2 ⟨rfl, splitNl_head_prefix rest q qs hs⟩).isInfix
        · exact ((ih p (hs ▸ List.mem_cons_of_mem q hp))).trans
            (List.infix_cons (List.infix_refl rest))

theorem not_head_dropWhile (p : α → Bool) :
    ∀ (l : List α) (x : α) (xs : List α), l.dropWhile p = x :: xs → ¬ p x := by
  intro l
  induction l with
  | nil => intro x xs h; simp at h
  | cons a l ih =>
    intro x xs h
    rw [List.dropWhile_cons] at h
    split at h
    · exact ih x xs h
    · rename_i hpa
      injection h with h1 _
      subst h1
      exact hpa

theorem dropWhile_dropWhile (p : α → Bool) (l : List α) :
    (l.dropWhile p).dropWhile p = l.dropWhile p := by
  cases hd : l.dropWhile p with
  | nil => rfl
  | cons x xs => rw [List.dropWhile_cons_of_neg (not_head_dropWhile p l x xs hd)]

theorem trimR_prefix_self (x : Str) : trimR x <+: x := by
  have h := List.dropWhile_suffix (l := x.reverse) isWs
  have h2 := List.reverse_prefix.2 h
  rw [List.reverse_reverse] at h2
  exact h2

theorem trimR_trimR (x : Str) : trimR (trimR x) = trimR x := by
  rw [trimR, trimR, List.reverse_reverse, dropWhile_dropWhile]

theorem trimL_trimR_of_trimL (s : Str) :
    trimL (trimR (trimL s)) = trimR (trimL s) := by
  cases hd : trimR (trimL s) with
  | nil => rfl
  | cons d ds =>
    have hpre : trimR (trimL s) <+: trimL s := trimR_prefix_self (trimL s)
    rw [hd] at hpre
    cases hx : trimL s with
    | nil =>
      rw [hx] at hpre
      exact absurd hpre (by simp)
    | cons e es =>
      have hde : d = e := by
        rw [hx] at hpre
        exact ((List.cons_prefix_cons).1 hpre).1
      have he : ¬ isWs e := not_head_dropWhile isWs s e es hx
      rw [trimL, List.dropWhile_cons_of_neg (hde ▸ he)]

theorem trimStr_trimStr (s : Str) : trimStr (trimStr s) = trimStr s := by
  rw [trimStr, trimStr, trimL_trimR_of_trimL, trimR_trimR]

theorem trimStr_cons_ws (c : Char) (s : Str) (h : isWs c) :
    trimStr (c :: s) = trimStr s := by
  rw [trimStr, trimStr, trimL, trimL, List.dropWhile_cons_of_pos h]

theorem trimR_append_ws (x : Str) (c : Char) (h : isWs c) :
    trimR (x ++ [c]) = trimR x := by
  rw [trimR, trimR, List.reverse_append]
  simp only [List.reverse_cons, List.reverse_nil, List.nil_append, List.singleton_append]
  rw [List.dropWhile_cons_of_pos h]

theorem trimStr_append_ws (s : Str) (c : Char) (h : isWs c) :
    trimStr (s ++ [c]) = trimStr s := by
  rw [trimStr, trimStr, trimL, trimL, List.dropWhile_append]
  split
  · rename_i hemp
    rw [List.isEmpty_iff] at hemp
    rw [hemp, List.dropWhile_cons_of_pos h, List.dropWhile_nil]
  · exact trimR_append_ws _ c h

theorem trimStr_infix_self (s : Str) : trimStr s <:+: s :=
  (trimR_prefix_self (trimL s)).isInfix.trans (List.dropWhile_suffix isWs).isInfix

theorem prefix_append_cases {l a b : Str} (h : l <+: a ++ b) :
    l <+: a ∨ ∃ m, l = a ++ m ∧ m <+: b := by
  rcases List.prefix_or_prefix_of_prefix h (List.prefix_append a b) with h' | h'
  · exact Or.inl h'
  · obtain ⟨m, rfl⟩ := h'
    exact Or.inr ⟨m, rfl, (List.prefix_append_right_inj a).1 h⟩

theorem marker_no_overlap :
    ∀ k, 1 ≤ k → k ≤ 9 → ¬ (markerL.drop k <+: markerL) := by
  intro k h1 h9
  interval_cases k <;> decide

theorem marker_not_prefix_of_spanning {p r : Str} (hp : ¬ markerL <+: p) (hne : p ≠ []) :
    ¬ markerL <+: (p ++ (markerL ++ r)) := by
  intro h
  rcases prefix_append_cases h with h' | ⟨m, hm, hmb⟩
  · exact hp h'
  · rcases List.eq_nil_or_concat m with rfl | _
    · rw [List.append_nil] at hm
      exact hp (hm ▸ List.prefix_refl p)
    · have hmpre : m <+: markerL :=
        List.prefix_of_prefix_length_le hmb (List.prefix_append markerL r)
          (by have := congrArg List.length hm; simp at this; simp [markerL] at this ⊢; omega)
      have hmdrop : m = markerL.drop p.length := by
        have : (p ++ m).drop p.length = markerL.drop p.length := by rw [← hm]
        simpa using this
      have hlen : p.length + m.length = 10 := by
        have := congrArg List.length hm
        simp [markerL] at this
        omega
      have hple1 : 1 ≤ p.length := by
        cases p with
        | nil => exact absurd rfl hne
        | cons _ _ => simp
      have hple9 : p.length ≤ 9 := by
        rename_i hmne
        obtain ⟨_, _, rfl⟩ := hmne
        simp at hlen
        omega
      exact marker_no_overlap p.length hple1 hple9 (hmdrop ▸ hmpre)

/-- Splitting a marker-free prefix followed by a marker peels exactly that
prefix off as the first piece. -/
theorem splitMarker_append_marker :
    ∀ (p r : Str), noMarkerIn p → splitMarker (p ++ (markerL ++ r)) = p :: splitMarker r := by
  intro p
  induction p with
  | nil =>
    intro r _
    rw [List.nil_append, splitMarker_marker]
  | cons c p' ih =>
    intro r hnm
    have hfree := markerFree_of_noMarkerIn _ hnm
    have hnp : ¬ markerL <+: (c :: p') := fun h => hfree h.isInfix
    have hnp' : ¬ markerL.isPrefixOf ((c :: p') ++ (markerL ++ r)) := by
      rw [List.isPrefixOf_iff_prefix]
      exact marker_not_prefix_of_spanning hnp (by simp)
    rw [List.cons_append] at hnp' ⊢
    rw [splitMarker_cons_neg c _ hnp']
    have hfree' : markerFree p' :=
      markerFree_of_infix (List.infix_cons (List.infix_refl p')) hfree
    rw [ih r (noMarkerIn_of_markerFree p' hfree')]
    rfl

theorem splitMarker_head_prefix :
    ∀ (s : Str) (p : Str) (ps : List Str), splitMarker s = p :: ps → p <+: s := by
  intro s
  induction s with
  | nil =>
    intro p ps h
    rw [splitMarker_nil] at h
    injection h with h1 h2
    simp [← h1]
  | cons c rest ih =>
    intro p ps h
    by_cases hp : markerL.isPrefixOf (c :: rest)
    · obtain ⟨r, hr⟩ := List.isPrefixOf_iff_prefix.1 hp
      rw [← hr, splitMarker_marker] at h
      injection h with h1 h2
      simp [← h1]
    · rw [splitMarker_cons_neg c rest hp] at h
      cases hs : splitMarker rest with
      | nil => exact absurd hs (splitMarker_ne_nil rest)
      | cons q qs =>
        rw [hs] at h
        simp only [consHead] at h
        injection h with h1 h2
        subst h1
        exact (List.cons_prefix_cons).2 ⟨rfl, ih q qs hs⟩

/-- Every piece produced by the splitter is itself marker free. -/
theorem splitMarker_pieces_free :
    ∀ (n : Nat) (s : Str), s.length ≤ n → ∀ p ∈ splitMarker s, markerFree p := by
  intro n
  induction n with
  | zero =>
    intro s hlen p hp
    rw [List.length_eq_zero.1 (Nat.le_zero.1 hlen)] at hp
    rw [splitMarker_nil] at hp
    simp at hp
    subst hp
    intro hinf
    rw [List.infix_nil] at hinf
    exact absurd hinf (by simp [markerL])
  | succ n ih =>
    intro s hlen p hp
    cases s with
    | nil =>
      rw [splitMarker_nil] at hp
      simp at hp
      subst hp
      intro hinf
      rw [List.infix_nil] at hinf
      exact absurd hinf (by simp [markerL])
    | cons c rest =>
      by_cases hpre : markerL.isPrefixOf (c :: rest)
      · obtain ⟨r, hr⟩ := List.isPrefixOf_iff_prefix.1 hpre
        rw [← hr, splitMarker_marker] at hp
        rcases List.mem_cons.1 hp with hp | hp
        · subst hp
          intro hinf
          rw [List.infix_nil] at hinf
          exact absurd hinf (by simp [markerL])
        · refine ih r ?_ p hp
          have := congrArg List.length hr
          simp [markerL] at this ⊢
          simp at hlen
          omega
      · rw [splitMarker_cons_neg c rest hpre] at hp
        cases hs : splitMarker rest with
        | nil => exact absurd hs (splitMarker_ne_nil rest)
        | cons q qs =>
          rw [hs] at hp
          simp only [consHead] at hp
          have hrest : rest.length ≤ n := by simp at hlen; omega
          rcases List.mem_cons.1 hp with hp | hp
          · subst hp
            intro hinf
            rcases List.infix_cons_iff.1 hinf with hi | hi
            · exact hpre (List.isPrefixOf_iff_prefix.2
                (hi.trans ((List.cons_prefix_cons).2
                  ⟨rfl, splitMarker_head_prefix rest q qs hs⟩)))
            · exact ih rest hrest q (by rw [hs]; simp) hi
          · exact ih rest hrest p (by rw [hs]; exact List.mem_cons_of_mem q hp)

/-! ## Chunk Grouper: `groupBySize` (src/services/git-analyzer.js lines 4-37) -/

/-- Loop body of `groupBySize`: `cur` is `currentGroup`, `size` is
`currentSize`.  Mirrors the source loop and the final flush. -/
def groupBySizeGo (getSize : α → Int) (maxSize : Int) :
    List α → List α → Int → List (List α)
  | [], cur, _ => if cur.isEmpty then [] else [cur]
  | item :: rest, cur, size =>
    let s := getSize item
    if maxSize < s then
      (if cur.isEmpty then [] else [cur]) ++ [item] :: groupBySizeGo getSize maxSize rest [] 0
    else if maxSize < size + s then
      cur :: groupBySizeGo getSize maxSize rest [item] s
    else
      groupBySizeGo getSize maxSize rest (cur ++ [item]) (size + s)

/-- `groupBySize(items, maxSize, getSize)` from src/services/git-analyzer.js. -/
def groupBySize (items : List α) (maxSize : Int) (getSize : α → Int) : List (List α) :=
  groupBySizeGo getSize maxSize items [] 0

theorem groupBySizeGo_flatten (getSize : α → Int) (maxSize : Int) :
    ∀ (items cur : List α) (size : Int),
      (groupBySizeGo getSize maxSize items cur size).flatten = cur ++ items := by
  intro items
  induction items with
  | nil =>
    intro cur size
    by_cases h : cur.isEmpty <;> simp_all [groupBySizeGo, List.isEmpty_iff]
  | cons item rest ih =>
    intro cur size
    simp only [groupBySizeGo]
    by_cases h1 : maxSize < getSize item
    · by_cases h2 : cur.isEmpty <;>
        simp_all [List.isEmpty_iff, List.flatten_cons]
    · simp only [if_neg h1]
      by_cases h2 : maxSize < size + getSize item
      · simp [if_pos h2, ih]
      · simp [if_neg h2, ih]

theorem groupBySizeGo_sizes (getSize : α → Int) (maxSize : Int) (hpos : 0 < maxSize) :
    ∀ (items cur : List α) (size : Int),
      (cur.map getSize).sum = size → size ≤ maxSize →
      ∀ g ∈ groupBySizeGo getSize maxSize items cur size,
        (g.map getSize).sum ≤ maxSize ∨ ∃ a, g = [a] ∧ maxSize < getSize a := by
  intro items
  induction items with
  | nil =>
    intro cur size hsum hle g hg
    by_cases h : cur.isEmpty <;> simp_all [groupBySizeGo]
  | cons item rest ih =>
    intro cur size hsum hle g hg
    simp only [groupBySizeGo] at hg
    by_cases h1 : maxSize < getSize item
    · rw [if_pos h1] at hg
      rcases List.mem_append.1 hg with hg | hg
      · by_cases h2 : cur.isEmpty
        · simp [h2] at hg
        · simp only [if_neg h2, List.mem_singleton] at hg
          subst hg
          exact Or.inl (hsum ▸ hle)
      · rcases List.mem_cons.1 hg with hg | hg
        · exact Or.inr ⟨item, hg, h1⟩
        · exact ih [] 0 (by simp) (le_of_lt hpos) g hg
    · rw [if_neg h1] at hg
      by_cases h2 : maxSize < size + getSize item
      · rw [if_pos h2] at hg
        rcases List.mem_cons.1 hg with hg | hg
        · subst hg
          exact Or.inl (hsum ▸ hle)
        · exact ih [item] (getSize item) (by simp) (not_lt.1 h1) g hg
      · rw [if_neg h2] at hg
        refine ih (cur ++ [item]) (size + getSize item) ?_ (not_lt.1 h2) g hg
        simp [hsum]

/-- Claim C1: for every item sequence, every maxSize > 0 and every size
function, concatenating the groups produced by `groupBySize` in order
yields exactly the original sequence: nothing is dropped, duplicated,
reordered or split. -/
theorem groupBySize_partition (items : List α) (maxSize : Int) (getSize : α → Int)
    (hpos : 0 < maxSize) :
    (groupBySize items maxSize getSize).flatten = items := by
  simpa using groupBySizeGo_flatten getSize maxSize items [] 0

theorem groupBySize_partition_witness :
    (0 : Int) < 3 ∧
      (groupBySize [(1 : Int), 2, 5, 1] 3 id).flatten = [(1 : Int), 2, 5, 1] :=
  ⟨by decide, groupBySize_partition [(1 : Int), 2, 5, 1] 3 id (by decide)⟩

/-- Claim C2: every group produced by `groupBySize` has combined size at
most maxSize, except a singleton group whose single item's size exceeds
maxSize. -/
theorem groupBySize_bounded (items : List α) (maxSize : Int) (getSize : α → Int)
    (hpos : 0 < maxSize) :
    ∀ g ∈ groupBySize items maxSize getSize,
      (g.map getSize).sum ≤ maxSize ∨ ∃ a, g = [a] ∧ maxSize < getSize a :=
  groupBySizeGo_sizes getSize maxSize hpos items [] 0 (by simp) (le_of_lt hpos)

theorem groupBySize_bounded_witness :
    ([(1 : Int), 2].map id).sum ≤ 3 ∨ ∃ a, [(1 : Int), 2] = [a] ∧ 3 < id a :=
  groupBySize_bounded [(1 : Int), 2, 5] 3 id (by decide) [1, 2] (by decide)

/-! ## Diff Segmenter: `splitDiffIntoFileChunks`
(src/services/git-analyzer.js lines 40-60) -/

/-- The separator `' b/'` used to extract the file path from a marker line. -/
def bSlashL : Str := [' ', 'b', '/']

/-- Fuel-driven worker modelling `line.split(' b/')`. -/
def splitBSlashGo : Nat → Str → List Str
  | _, [] => [[]]
  | 0, s => [s]
  | fuel + 1, c :: rest =>
    if bSlashL.isPrefixOf (c :: rest) then
      [] :: splitBSlashGo fuel ((c :: rest).drop 3)
    else
      consHead c (splitBSlashGo fuel rest)

/-- JavaScript `line.split(' b/')`. -/
def splitBSlash (s : Str) : List Str := splitBSlashGo s.length s

/-- A per-file diff segment: `{ file, content }`.  `file` is `none` when
the JavaScript value would be `undefined` (marker line without ` b/`). -/
structure DiffChunk where
  file : Option Str
  content : Str
deriving DecidableEq

/-- Loop of `splitDiffIntoFileChunks`: `cur` is `currentChunk` (already
including the trailing newlines), `curFile` is `currentFile`. -/
def segGo : List Str → Str → Option Str → List DiffChunk
  | [], cur, curFile => if cur = [] then [] else [⟨curFile, trimStr cur⟩]
  | l :: rest, cur, curFile =>
    if markerL.isPrefixOf l then
      (if cur = [] then [] else [⟨curFile, trimStr cur⟩]) ++
        segGo rest (l ++ [nl]) ((splitBSlash l).get? 1)
    else
      segGo rest (cur ++ l ++ [nl]) curFile

/-- `splitDiffIntoFileChunks(diff)` from src/services/git-analyzer.js:
split the diff into lines and start a new chunk at every line beginning
with `diff --git`; the initial `currentFile` is the empty string. -/
def splitDiffIntoFileChunks (diff : Str) : List DiffChunk :=
  segGo (splitNl diff) [] (some [])

theorem segGo_no_marker :
    ∀ (ls : List Str) (cur : Str) (f : Option Str),
      (∀ l ∈ ls, ¬ markerL.isPrefixOf l) →
      segGo ls cur f =
        if cur ++ joinedNl ls = [] then [] else [⟨f, trimStr (cur ++ joinedNl ls)⟩] := by
  intro ls
  induction ls with
  | nil =>
    intro cur f _
    simp [segGo, joinedNl_nil]
  | cons l rest ih =>
    intro cur f h
    rw [segGo.eq_def]
    simp only
    rw [if_neg (h l (by simp))]
    rw [ih (cur ++ l ++ [nl]) f (fun x hx => h x (by simp [hx]))]
    rw [joinedNl_cons]
    simp [List.append_assoc]

/-- Claim C3 counterexample: on the empty string the segmenter yields one
segment (with empty path and empty content), not an empty sequence. -/
theorem splitDiff_empty_counterexample :
    splitDiffIntoFileChunks [] ≠ [] ∧
      splitDiffIntoFileChunks [] = [⟨some [], []⟩] := by
  constructor
  · decide
  · decide

/-- Claim C3 (amended): on any diff text none of whose lines begins with
`diff --git` — including the empty string — the segmenter yields exactly
one segment whose file path is the empty string and whose content is the
whole text trimmed; no input yields zero segments. -/
theorem splitDiff_no_marker (d : Str)
    (h : ∀ l ∈ splitNl d, ¬ markerL.isPrefixOf l) :
    splitDiffIntoFileChunks d = [⟨some [], trimStr d⟩] := by
  rw [splitDiffIntoFileChunks, segGo_no_marker (splitNl d) [] (some []) h]
  rw [List.nil_append, joinedNl_splitNl]
  rw [if_neg (by simp)]
  rw [trimStr_append_ws d nl (by decide)]

theorem splitDiff_no_marker_witness :
    (∀ l ∈ splitNl (str "hello world"), ¬ markerL.isPrefixOf l) ∧
      splitDiffIntoFileChunks (str "hello world") = [⟨some [], trimStr (str "hello world")⟩] :=
  ⟨by decide, splitDiff_no_marker (str "hello world") (by decide)⟩

/-! ## Diff Filter: `filterSourceFiles` (src/services/git-service.js lines 5-28)

`isSourceFile` comes from project-analyzer.js, an external collaborator,
and is passed in as a parameter.  The path is extracted with the regex
`/a\x2f(.+?) b\x2f/`, modelled by `findPath`: leftmost start position, lazy
(shortest) capture of non-newline characters terminated by the literal
separator modelled by `bSlashL`. -/

/-- Backtracking worker for the lazy capture group: `accRev` holds the
captured characters in reverse; stop as soon as the separator follows,
fail at a newline or at the end of the section. -/
def capLoop : Str → Str → Option Str
  | accRev, [] =>
    match accRev with
    | _ => none
  | accRev, c :: rest =>
    if bSlashL.isPrefixOf (c :: rest) then some accRev.reverse
    else if c = nl then none
    else capLoop (c :: accRev) rest

/-- Try to match the path pattern at the start of `s`. -/
def tryPathAt (s : Str) : Option Str :=
  match s with
  | c1 :: c2 :: after =>
    if c1 = 'a' ∧ c2 = '/' then
      match after with
      | [] => none
      | c3 :: more => if c3 = nl then none else capLoop [c3] more
    else none
  | _ => none

/-- `section.match(/a\x2f(.+?) b\x2f/)?.[1]`: first matching start
position wins. -/
def findPath : Str → Option Str
  | [] => none
  | c :: rest =>
    match tryPathAt (c :: rest) with
    | some p => some p
    | none => findPath rest

/-- JavaScript `Array.prototype.join(sep)`. -/
def joinSep (sep : Str) : List Str → Str
  | [] => []
  | [s] => s
  | s :: rest => s ++ sep ++ joinSep sep rest

/-- The `diff --git ` prefix (with trailing space) re-inserted by the
filter when reassembling kept sections. -/
def markerSp : Str := markerL ++ [' ']

/-- The raw per-file sections the filter works on: split on the marker
and drop empty pieces (`diffSections.filter(Boolean)`). -/
def filterSections (diff : Str) : List Str :=
  (splitMarker diff).filter (fun s => !s.isEmpty)

/-- The filter's per-section test: extract the path with the pattern and
consult `isSourceFile`; sections without a path match are dropped. -/
def filterKeep (isSourceFile : Str → Str → Bool) (projectType : Str)
    (sec : Str) : Bool :=
  match findPath sec with
  | none => false
  | some filePath => isSourceFile filePath projectType

/-- The kept, trimmed sections (`sourceDiffs` in the source). -/
def sourceDiffsOf (isSourceFile : Str → Str → Bool) (diff : Str)
    (projectType : Str) : List Str :=
  ((filterSections diff).map trimStr).filter (filterKeep isSourceFile projectType)

/-- `filterSourceFiles(diff, projectType)` from src/services/git-service.js:
split into sections, trim, keep source-file sections, and reassemble with
the `diff --git ` prefix re-inserted (empty string when nothing is kept). -/
def filterSourceFiles (isSourceFile : Str → Str → Bool) (diff : Str)
    (projectType : Str) : Str :=
  if (sourceDiffsOf isSourceFile diff projectType).isEmpty then []
  else markerSp ++ joinSep ([nl] ++ markerSp) (sourceDiffsOf isSourceFile diff projectType)

/-! ## Boundary agreement between Diff Filter and Diff Segmenter (C7) -/

/-- Claim C7 counterexample: on a text where `diff --git` occurs in the
middle of a line, the filter's raw-text split produces two sections while
the segmenter produces a single segment — the two boundary rules
disagree.  They also disagree on the empty text, where the filter has no
section (its split keeps only non-empty pieces) but the segmenter still
yields one segment; this second disagreement forces the amended claim to
restrict itself to non-empty texts. -/
theorem sections_segments_counterexample :
    filterSections (str "x diff --git y") = [str "x ", str " y"] ∧
      (splitDiffIntoFileChunks (str "x diff --git y")).length = 1 ∧
      (filterSections (str "x diff --git y")).length ≠
        (splitDiffIntoFileChunks (str "x diff --git y")).length ∧
      filterSections [] = [] ∧
      (splitDiffIntoFileChunks []).length = 1 ∧
      (filterSections ([] : Str)).length ≠
        (splitDiffIntoFileChunks ([] : Str)).length := by
  refine ⟨by decide, by decide, by decide, by decide, by decide, by decide⟩

/-- The marker blocks of a decomposed diff text: each `t` is the text of
one file section following its `diff --git` marker. -/
def tsBlocks (ts : List Str) : Str := (ts.map (fun t => markerL ++ t)).flatten

/-- Well-formedness of the block texts: every block but the last ends
with a newline (so the next marker starts a line), and the last is
non-empty (so the text does not stop dead at a marker). -/
def tsChain : List Str → Prop
  | [] => True
  | [t] => t ≠ []
  | t :: rest => (∃ t', t = t' ++ [nl]) ∧ tsChain rest

theorem tsChain_ne_nil : ∀ ts, tsChain ts → ∀ t ∈ ts, t ≠ [] := by
  intro ts
  induction ts with
  | nil => intro _ t ht; simp at ht
  | cons t rest ih =>
    intro hc u hu
    cases rest with
    | nil =>
      simp at hu
      subst hu
      exact hc
    | cons r rs =>
      obtain ⟨⟨t', rfl⟩, hrest⟩ := hc
      rcases List.mem_cons.1 hu with rfl | hu
      · simp
      · exact ih hrest u hu

theorem splitMarker_pre_blocks :
    ∀ (ts : List Str) (p : Str), noMarkerIn p → (∀ t ∈ ts, noMarkerIn t) →
      splitMarker (p ++ tsBlocks ts) = p :: ts := by
  intro ts
  induction ts with
  | nil =>
    intro p hp _
    rw [tsBlocks]
    simp only [List.map_nil, List.flatten_nil, List.append_nil]
    exact hp
  | cons t rest ih =>
    intro p hp hts
    have hblocks : tsBlocks (t :: rest) = markerL ++ (t ++ tsBlocks rest) := by
      rw [tsBlocks, List.map_cons, List.flatten_cons, tsBlocks, List.append_assoc]
    rw [hblocks, ← List.append_assoc]
    rw [List.append_assoc p markerL (t ++ tsBlocks rest)]
    rw [splitMarker_append_marker p (t ++ tsBlocks rest) hp]
    rw [ih t (hts t (by simp)) (fun u hu => hts u (by simp [hu]))]

theorem lines_not_marker_of_markerFree (s : Str) (h : markerFree s) :
    ∀ l ∈ splitNl s, ¬ markerL.isPrefixOf l := by
  intro l hl hpre
  exact h ((List.isPrefixOf_iff_prefix.1 hpre).isInfix.trans (splitNl_infix_of_mem s l hl))

theorem splitNl_concat_nl (t : Str) : splitNl (t ++ [nl]) = splitNl t ++ [[]] := by
  rw [splitNl_append]
  have hnl : splitNl [nl] = [[], []] := by
    rw [show ([nl] : Str) = nl :: [] from rfl, splitNl_cons_nl]
    rfl
  rw [hnl]
  have : ∀ xs : List Str, xs ≠ [] → glue xs [[], []] = xs ++ [[]] := by
    intro xs
    induction xs with
    | nil => intro h; exact absurd rfl h
    | cons x xs' ih =>
      intro _
      cases xs' with
      | nil =>
        rw [glue_single]
        simp
      | cons a l =>
        rw [glue_cons_of_ne_nil x (a :: l) _ (by simp), ih (by simp)]
        rfl
  exact this (splitNl t) (splitNl_ne_nil t)

theorem splitNl_no_nl_append :
    ∀ (m t : Str), (∀ c ∈ m, ¬ c = nl) →
      ∀ (p : Str) (ps : List Str), splitNl t = p :: ps →
        splitNl (m ++ t) = (m ++ p) :: ps := by
  intro m
  induction m with
  | nil =>
    intro t _ p ps ht
    simpa using ht
  | cons c m' ih =>
    intro t hm p ps ht
    rw [List.cons_append, splitNl_cons_neg c _ (hm c (by simp)),
      ih t (fun x hx => hm x (by simp [hx])) p ps ht]
    rfl

theorem segGo_skip :
    ∀ (ls more : List Str) (cur : Str) (f : Option Str),
      (∀ l ∈ ls, ¬ markerL.isPrefixOf l) →
      segGo (ls ++ more) cur f = segGo more (cur ++ joinedNl ls) f := by
  intro ls
  induction ls with
  | nil =>
    intro more cur f _
    simp [joinedNl_nil]
  | cons l rest ih =>
    intro more cur f h
    rw [List.cons_append, segGo.eq_def]
    simp only
    rw [if_neg (h l (by simp))]
    rw [ih more (cur ++ l ++ [nl]) f (fun x hx => h x (by simp [hx]))]
    rw [joinedNl_cons]
    simp [List.append_assoc]

theorem seg_blocks :
    ∀ (ts : List Str), tsChain ts → (∀ t ∈ ts, noMarkerIn t) →
      ∀ (cur : Str) (f : Option Str), (ts = [] → cur ≠ []) →
        (segGo (splitNl (tsBlocks ts)) cur f).map DiffChunk.content =
          (if cur = [] then [] else [trimStr cur]) ++
            ts.map (fun t => trimStr (markerL ++ t)) := by
  intro ts
  induction ts with
  | nil =>
    intro _ _ cur f hcur
    have hcur' : cur ≠ [] := hcur rfl
    rw [show tsBlocks [] = [] from rfl]
    rw [show splitNl [] = [[]] from rfl]
    rw [segGo_no_marker [[]] cur f (by intro l hl; simp at hl; subst hl; decide)]
    have hj : joinedNl [[]] = [nl] := rfl
    rw [hj, if_neg (by simp)]
    rw [trimStr_append_ws cur nl (by decide)]
    simp [hcur']
  | cons t rest ih =>
    intro hchain hnm cur f _
    have hblocks : tsBlocks (t :: rest) = (markerL ++ t) ++ tsBlocks rest := by
      simp [tsBlocks]
    have hmfree : markerFree t := markerFree_of_noMarkerIn t (hnm t (by simp))
    cases rest with
    | nil =>
      cases hp : splitNl t with
      | nil => exact absurd hp (splitNl_ne_nil t)
      | cons p ps =>
        have hlines : splitNl (tsBlocks [t]) = (markerL ++ p) :: ps := by
          rw [hblocks, show tsBlocks [] = [] from rfl, List.append_nil]
          exact splitNl_no_nl_append markerL t (by decide) p ps hp
        rw [hlines, segGo.eq_def]
        simp only
        rw [if_pos (List.isPrefixOf_iff_prefix.2 (List.prefix_append _ _))]
        rw [segGo_no_marker ps _ _ (by
          intro l hl
          exact lines_not_marker_of_markerFree t hmfree l (by rw [hp]; simp [hl]))]
        have hchunk : markerL ++ p ++ [nl] ++ joinedNl ps = markerL ++ (t ++ [nl]) := by
          have hjt := joinedNl_splitNl t
          rw [hp, joinedNl_cons] at hjt
          calc markerL ++ p ++ [nl] ++ joinedNl ps
              = markerL ++ (p ++ [nl] ++ joinedNl ps) := by simp [List.append_assoc]
            _ = markerL ++ (t ++ [nl]) := by rw [hjt]
        rw [hchunk]
        have hne' : markerL ++ (t ++ [nl]) ≠ [] := by simp [markerL]
        rw [if_neg hne']
        have htrim : trimStr (markerL ++ (t ++ [nl])) = trimStr (markerL ++ t) := by
          rw [← List.append_assoc]
          exact trimStr_append_ws (markerL ++ t) nl (by decide)
        by_cases hcur : cur = []
        · simp [hcur, htrim]
        · simp [hcur, htrim]
    | cons r rs =>
      have hchain' : (∃ t', t = t' ++ [nl]) ∧ tsChain (r :: rs) := hchain
      obtain ⟨⟨t', rfl⟩, hrest⟩ := hchain'
      have hmfree' : markerFree t' :=
        markerFree_of_infix (List.prefix_append t' [nl]).isInfix hmfree
      cases hq : splitNl t' with
      | nil => exact absurd hq (splitNl_ne_nil t')
      | cons q qs =>
        have hpt : splitNl (t' ++ [nl]) = q :: (qs ++ [[]]) := by
          rw [splitNl_concat_nl, hq]
          rfl
        have hmt : splitNl (markerL ++ (t' ++ [nl])) = (markerL ++ q) :: (qs ++ [[]]) :=
          splitNl_no_nl_append markerL (t' ++ [nl]) (by decide) q (qs ++ [[]]) hpt
        cases hy : splitNl (tsBlocks (r :: rs)) with
        | nil => exact absurd hy (splitNl_ne_nil _)
        | cons y ys =>
          have hlines : splitNl (tsBlocks ((t' ++ [nl]) :: r :: rs)) =
              (markerL ++ q) :: (qs ++ splitNl (tsBlocks (r :: rs))) := by
            rw [hblocks, splitNl_append, hmt, hy]
            rw [show (markerL ++ q) :: (qs ++ [[]]) = ((markerL ++ q) :: qs) ++ [[]] from rfl]
            rw [glue_append_of_ne_nil _ [[]] _ (by simp)]
            rw [show glue [[]] (y :: ys) = ([] ++ y) :: ys from rfl]
            simp [hy]
          rw [hlines, segGo.eq_def]
          simp only
          rw [if_pos (List.isPrefixOf_iff_prefix.2 (List.prefix_append _ _))]
          rw [segGo_skip qs _ _ _ (by
            intro l hl
            exact lines_not_marker_of_markerFree t' hmfree' l (by rw [hq]; simp [hl]))]
          have hchunk : markerL ++ q ++ [nl] ++ joinedNl qs = markerL ++ (t' ++ [nl]) := by
            have hjt := joinedNl_splitNl t'
            rw [hq, joinedNl_cons] at hjt
            calc markerL ++ q ++ [nl] ++ joinedNl qs
                = markerL ++ (q ++ [nl] ++ joinedNl qs) := by simp [List.append_assoc]
              _ = markerL ++ (t' ++ [nl]) := by rw [hjt]
          rw [hchunk]
          rw [List.map_append]
          rw [ih hrest (fun u hu => hnm u (by simp [hu])) (markerL ++ (t' ++ [nl]))
            ((splitBSlash (markerL ++ q)).get? 1) (by intro h; simp at h)]
          have hne' : markerL ++ (t' ++ [nl]) ≠ [] := by simp [markerL]
          rw [if_neg hne']
          by_cases hcur : cur = []
          · simp [hcur]
          · simp [hcur]

/-- Claim C7 (amended): the filter's raw-text split and the segmenter's
line-based split agree exactly on non-empty texts whose marker
occurrences all start a line and which do not stop dead at a marker.
For such a text, decomposed as a marker-free prefix `pre` followed by
marker blocks `ts` — non-emptiness is the hypothesis
`¬(pre = [] ∧ ts = [])` — the filter's nonempty sections are `pre` (when
nonempty) followed by the blocks, the segmenter produces one segment per
section in the same order, the section counts agree, and each marker
segment's content is the corresponding section re-prefixed with
`diff --git` and trimmed (the leading marker-less segment is the section
trimmed as-is).  On texts with a mid-line marker occurrence, and on the
empty text, the two disagree (`sections_segments_counterexample`). -/
theorem sections_segments_agree (pre : Str) (ts : List Str)
    (hpre : noMarkerIn pre)
    (hts : ∀ t ∈ ts, noMarkerIn t)
    (hpreNl : ts = [] ∨ pre = [] ∨ ∃ p', pre = p' ++ [nl])
    (hchain : tsChain ts)
    (hne : ¬(pre = [] ∧ ts = [])) :
    filterSections (pre ++ tsBlocks ts) =
        (if pre = [] then [] else [pre]) ++ ts ∧
      (splitDiffIntoFileChunks (pre ++ tsBlocks ts)).map DiffChunk.content =
        (if pre = [] then [] else [trimStr pre]) ++
          ts.map (fun t => trimStr (markerL ++ t)) ∧
      (filterSections (pre ++ tsBlocks ts)).length =
        (splitDiffIntoFileChunks (pre ++ tsBlocks ts)).length := by
  have hsecs : filterSections (pre ++ tsBlocks ts) =
      (if pre = [] then [] else [pre]) ++ ts := by
    rw [filterSections, splitMarker_pre_blocks ts pre hpre hts]
    rw [List.filter_cons]
    have hts' : (ts.filter fun s => !s.isEmpty) = ts :=
      List.filter_eq_self.2 (fun t ht => by
        simp [List.isEmpty_iff]
        exact tsChain_ne_nil ts hchain t ht)
    by_cases hp : pre = []
    · simp [hp, hts']
    · simp [List.isEmpty_iff, hp, hts']
  have hsegs : (splitDiffIntoFileChunks (pre ++ tsBlocks ts)).map DiffChunk.content =
      (if pre = [] then [] else [trimStr pre]) ++
        ts.map (fun t => trimStr (markerL ++ t)) := by
    rw [splitDiffIntoFileChunks]
    by_cases hp : pre = []
    · subst hp
      rw [List.nil_append]
      have hts0 : ts ≠ [] := fun h => hne ⟨rfl, h⟩
      rw [seg_blocks ts hchain hts [] (some []) (fun h => absurd h hts0)]
    · cases ts with
      | nil =>
        have hfree : markerFree pre := markerFree_of_noMarkerIn pre hpre
        rw [show tsBlocks [] = [] from rfl, List.append_nil]
        rw [segGo_no_marker (splitNl pre) [] (some [])
          (lines_not_marker_of_markerFree pre hfree)]
        rw [List.nil_append, joinedNl_splitNl]
        rw [if_neg (by simp)]
        rw [trimStr_append_ws pre nl (by decide)]
        simp [hp]
      | cons t rest =>
        rcases hpreNl with h0 | h0 | ⟨p', rfl⟩
        · simp at h0
        · exact absurd h0 hp
        · have hfree : markerFree p' :=
            markerFree_of_infix (List.prefix_append p' [nl]).isInfix
              (markerFree_of_noMarkerIn _ hpre)
          cases hq : splitNl p' with
          | nil => exact absurd hq (splitNl_ne_nil p')
          | cons q qs =>
            have hppre : splitNl (p' ++ [nl]) = (q :: qs) ++ [[]] := by
              rw [splitNl_concat_nl, hq]
            cases hy : splitNl (tsBlocks (t :: rest)) with
            | nil => exact absurd hy (splitNl_ne_nil _)
            | cons y ys =>
              have hlines : splitNl ((p' ++ [nl]) ++ tsBlocks (t :: rest)) =
                  (q :: qs) ++ splitNl (tsBlocks (t :: rest)) := by
                rw [splitNl_append, hppre, hy]
                rw [glue_append_of_ne_nil _ [[]] _ (by simp)]
                rw [show glue [[]] (y :: ys) = ([] ++ y) :: ys from rfl]
                simp
              rw [hlines]
              rw [segGo_skip (q :: qs) _ _ _ (by
                intro l hl
                exact lines_not_marker_of_markerFree p' hfree l (by rw [hq]; exact hl))]
              have hjq : [] ++ joinedNl (q :: qs) = p' ++ [nl] := by
                rw [List.nil_append, ← hq, joinedNl_splitNl]
              rw [hjq]
              rw [seg_blocks (t :: rest) hchain hts (p' ++ [nl]) (some [])
                (by intro h; simp at h)]
  refine ⟨hsecs, hsegs, ?_⟩
  have h1 := congrArg List.length hsecs
  have h2 := congrArg List.length hsegs
  rw [List.length_map] at h2
  rw [h1, h2]
  by_cases hp : pre = [] <;> simp [hp]

theorem sections_segments_agree_witness :
    filterSections (str "x\n" ++ tsBlocks [str "a\n", str "b"]) =
        (if str "x\n" = ([] : Str) then [] else [str "x\n"]) ++ [str "a\n", str "b"] ∧
      (splitDiffIntoFileChunks (str "x\n" ++ tsBlocks [str "a\n", str "b"])).map
          DiffChunk.content =
        (if str "x\n" = ([] : Str) then [] else [trimStr (str "x\n")]) ++
          [str "a\n", str "b"].map (fun t => trimStr (markerL ++ t)) ∧
      (filterSections (str "x\n" ++ tsBlocks [str "a\n", str "b"])).length =
        (splitDiffIntoFileChunks (str "x\n" ++ tsBlocks [str "a\n", str "b"])).length :=
  sections_segments_agree (str "x\n") [str "a\n", str "b"]
    (show splitMarker (str "x\n") = [str "x\n"] by decide)
    (by
      intro t ht
      simp only [List.mem_cons, List.mem_singleton, List.not_mem_nil, or_false] at ht
      rcases ht with rfl | rfl
      · show splitMarker (str "a\n") = [str "a\n"]
        decide
      · show splitMarker (str "b") = [str "b"]
        decide)
    (Or.inr (Or.inr ⟨str "x", by decide⟩))
    ⟨⟨str "a", by decide⟩, show str "b" ≠ [] by decide⟩
    (by
      intro hcontra
      exact absurd hcontra.1 (by decide))

/-! ## Idempotence of the Diff Filter (C10) -/

/-- The text the filter emits after the first `diff --git ` prefix, as a
function of the kept sections. -/
def filterBody : List Str → Str
  | [] => []
  | [s] => ' ' :: s
  | s :: rest => ' ' :: (s ++ [nl] ++ (markerL ++ filterBody rest))

/-- The pieces `splitMarker` recovers from `filterBody`. -/
def filterPieces : List Str → List Str
  | [] => []
  | [s] => [' ' :: s]
  | s :: rest => (' ' :: (s ++ [nl])) :: filterPieces rest

theorem markerFree_space_cons (s : Str) (h : markerFree s) :
    markerFree (' ' :: s) := by
  intro hinf
  rcases List.infix_cons_iff.1 hinf with hpre | hinf'
  · have h1 : markerL = 'd' :: ['i', 'f', 'f', ' ', '-', '-', 'g', 'i', 't'] := rfl
    rw [h1] at hpre
    exact absurd (List.cons_prefix_cons.1 hpre).1 (by decide)
  · exact h hinf'

theorem infix_concat_cases {m s : Str} {c : Char} (h : m <:+: s ++ [c]) :
    m <:+: s ∨ m <:+ (s ++ [c]) := by
  obtain ⟨u, v, huv⟩ := h
  rcases List.eq_nil_or_concat v with rfl | ⟨v', d, rfl⟩
  · right
    exact ⟨u, by simpa using huv⟩
  · left
    have h2 : (u ++ m ++ v') ++ [d] = s ++ [c] := by
      rw [← huv]
      simp [List.append_assoc]
    have hs := List.append_inj_left' h2 (by simp)
    exact ⟨u, v', hs⟩

theorem markerFree_concat_nl (s : Str) (h : markerFree s) :
    markerFree (s ++ [nl]) := by
  intro hinf
  rcases infix_concat_cases hinf with hi | hsuf
  · exact h hi
  · obtain ⟨u, hu⟩ := hsuf
    have hsplit : markerL = ['d', 'i', 'f', 'f', ' ', '-', '-', 'g', 'i'] ++ ['t'] := rfl
    rw [hsplit] at hu
    have h2 : (u ++ ['d', 'i', 'f', 'f', ' ', '-', '-', 'g', 'i']) ++ ['t'] = s ++ [nl] := by
      rw [← hu]
      simp [List.append_assoc]
    have h3 := List.append_inj_right' h2 (by simp)
    injection h3 with h4 _
    exact absurd h4 (by decide)

theorem out_eq_body : ∀ (S : List Str), S ≠ [] →
    markerSp ++ joinSep ([nl] ++ markerSp) S = markerL ++ filterBody S := by
  intro S
  induction S with
  | nil => intro h; exact absurd rfl h
  | cons s rest ih =>
    intro _
    cases rest with
    | nil =>
      show markerSp ++ joinSep ([nl] ++ markerSp) [s] = markerL ++ (' ' :: s)
      rw [show joinSep ([nl] ++ markerSp) [s] = s from rfl]
      simp [markerSp, List.append_assoc]
    | cons r rs =>
      have hjs : joinSep ([nl] ++ markerSp) (s :: r :: rs) =
          s ++ ([nl] ++ markerSp) ++ joinSep ([nl] ++ markerSp) (r :: rs) := rfl
      rw [hjs]
      have hbody : filterBody (s :: r :: rs) =
          ' ' :: (s ++ [nl] ++ (markerL ++ filterBody (r :: rs))) := rfl
      rw [hbody, ← ih (by simp)]
      simp [markerSp, List.append_assoc]

theorem splitMarker_body : ∀ (S : List Str), S ≠ [] → (∀ s ∈ S, markerFree s) →
    splitMarker (filterBody S) = filterPieces S := by
  intro S
  induction S with
  | nil => intro h; exact absurd rfl h
  | cons s rest ih =>
    intro _ h
    have hfree : markerFree s := h s (by simp)
    cases rest with
    | nil =>
      show splitMarker (' ' :: s) = [' ' :: s]
      exact noMarkerIn_of_markerFree _ (markerFree_space_cons s hfree)
    | cons r rs =>
      have hbody : filterBody (s :: r :: rs) =
          (' ' :: (s ++ [nl])) ++ (markerL ++ filterBody (r :: rs)) := by
        show ' ' :: (s ++ [nl] ++ (markerL ++ filterBody (r :: rs))) = _
        simp [List.append_assoc]
      rw [hbody]
      rw [splitMarker_append_marker _ _ (noMarkerIn_of_markerFree _
        (markerFree_space_cons _ (markerFree_concat_nl s hfree)))]
      rw [ih (by simp) (fun u hu => h u (by simp [hu]))]
      rfl

theorem filterPieces_ne_nil : ∀ (S : List Str), ∀ p ∈ filterPieces S, p ≠ [] := by
  intro S
  induction S with
  | nil => intro p hp; simp [filterPieces] at hp
  | cons s rest ih =>
    intro p hp
    cases rest with
    | nil =>
      simp only [filterPieces, List.mem_singleton] at hp
      subst hp
      simp
    | cons r rs =>
      rw [show filterPieces (s :: r :: rs) = (' ' :: (s ++ [nl])) :: filterPieces (r :: rs)
        from rfl] at hp
      rcases List.mem_cons.1 hp with rfl | hp
      · simp
      · exact ih p hp

theorem filterPieces_trim : ∀ (S : List Str), (∀ s ∈ S, trimStr s = s) →
    (filterPieces S).map trimStr = S := by
  intro S
  induction S with
  | nil => intro _; rfl
  | cons s rest ih =>
    intro h
    have hs : trimStr s = s := h s (by simp)
    cases rest with
    | nil =>
      show [trimStr (' ' :: s)] = [s]
      rw [trimStr_cons_ws ' ' s (by decide), hs]
    | cons r rs =>
      rw [show filterPieces (s :: r :: rs) = (' ' :: (s ++ [nl])) :: filterPieces (r :: rs)
        from rfl]
      rw [List.map_cons, ih (fun u hu => h u (by simp [hu]))]
      rw [trimStr_cons_ws ' ' _ (by decide), trimStr_append_ws s nl (by decide), hs]

theorem sourceDiffs_trim (isf : Str → Str → Bool) (d pt : Str) :
    ∀ s ∈ sourceDiffsOf isf d pt, trimStr s = s := by
  intro s hs
  have hs' := List.mem_of_mem_filter hs
  obtain ⟨p, _, rfl⟩ := List.mem_map.1 hs'
  exact trimStr_trimStr p

theorem sourceDiffs_free (isf : Str → Str → Bool) (d pt : Str) :
    ∀ s ∈ sourceDiffsOf isf d pt, markerFree s := by
  intro s hs
  have hs' := List.mem_of_mem_filter hs
  obtain ⟨p, hp, rfl⟩ := List.mem_map.1 hs'
  have hp' : p ∈ splitMarker d := List.mem_of_mem_filter hp
  exact markerFree_of_infix (trimStr_infix_self p)
    (splitMarker_pieces_free d.length d le_rfl p hp')

theorem sourceDiffs_of_output (isf : Str → Str → Bool) (d pt : Str) :
    sourceDiffsOf isf (filterSourceFiles isf d pt) pt = sourceDiffsOf isf d pt := by
  by_cases hS : sourceDiffsOf isf d pt = []
  · rw [filterSourceFiles, hS]
    rfl
  · have hout : filterSourceFiles isf d pt =
        markerL ++ filterBody (sourceDiffsOf isf d pt) := by
      rw [filterSourceFiles, if_neg (by simp [List.isEmpty_iff, hS])]
      exact out_eq_body _ hS
    rw [hout]
    have hfree := sourceDiffs_free isf d pt
    have htrim := sourceDiffs_trim isf d pt
    have hsections : filterSections (markerL ++ filterBody (sourceDiffsOf isf d pt)) =
        filterPieces (sourceDiffsOf isf d pt) := by
      rw [filterSections, splitMarker_marker, splitMarker_body _ hS hfree]
      rw [List.filter_cons]
      rw [if_neg (by simp)]
      exact List.filter_eq_self.2 (fun p hp => by
        simp [List.isEmpty_iff]
        exact filterPieces_ne_nil _ p hp)
    rw [sourceDiffsOf, hsections, filterPieces_trim _ htrim]
    refine List.filter_eq_self.2 ?_
    intro u hu
    rw [sourceDiffsOf] at hu
    exact List.of_mem_filter hu

/-- Claim C10: `filterSourceFiles` is idempotent — re-filtering its own
output (for the same project type and the same source-file predicate)
reproduces exactly the same output string. -/
theorem filterSourceFiles_idem (isf : Str → Str → Bool) (d pt : Str) :
    filterSourceFiles isf (filterSourceFiles isf d pt) pt =
      filterSourceFiles isf d pt := by
  have h := sourceDiffs_of_output isf d pt
  rw [filterSourceFiles, h]
  rw [filterSourceFiles]

/-! ## History Walker, commit mode: `getCommitDiffs`
(src/services/git-service.js lines 303-457)

git-service.js contains two revisions of the walker; this models the one
at lines 303-457 (the one with the fewer-than-`n+1`-commits fallback and
the trailing HEAD comparison, which the spec describes).  `git.diff` is
the oracle `diffOf`; the function additionally returns, in order, every
pair of refs handed to `git.diff`.  Failures of individual `git.diff`
calls (caught and logged in the source) are outside the model: `diffOf`
is total. -/

/-- A commit `{ hash, message }`. -/
structure Commit where
  hash : Str
  message : Str
deriving DecidableEq

/-- The empty-tree sentinel hash. -/
def EMPTY_TREE_HASH : Str := str "4b825dc642cb6eb9a060e54bf8d69288fbee4904"

/-- The `{ hash: EMPTY_TREE_HASH, message: 'Empty tree' }` pseudo-commit. -/
def emptyTreeCommit : Commit := ⟨EMPTY_TREE_HASH, str "Empty tree"⟩

/-- One element of the walker's result. -/
structure DiffRecord where
  fromCommit : Commit
  toCommit : Commit
  diff : Str
  message : Str
deriving DecidableEq

/-- One diff attempt of the source (`git.diff` + filter + conditional
push): the record list (empty or singleton) it contributes. -/
def diffStep (diffOf : Str → Str → Str) (isf : Str → Str → Bool) (pt : Str)
    (prev cur : Commit) : List DiffRecord :=
  if diffOf prev.hash cur.hash ≠ [] then
    if filterSourceFiles isf (diffOf prev.hash cur.hash) pt ≠ [] then
      [⟨prev, cur, filterSourceFiles isf (diffOf prev.hash cur.hash) pt, cur.message⟩]
    else []
  else []

/-- The `groupSize === 1` loop (`for i = 0; i < commitList.length; i++`),
fuel-driven on the index; `prev` is the empty tree for `i = 0` and
`commitList[i-1]` otherwise. -/
def commitLoop1 (diffOf : Str → Str → Str) (isf : Str → Str → Bool) (pt : Str)
    (cl : List Commit) : Nat → Nat → List DiffRecord × List (Str × Str)
  | 0, _ => ([], [])
  | fuel + 1, i =>
    if i < cl.length then
      (diffStep diffOf isf pt
          (if i = 0 then emptyTreeCommit else cl.getD (i - 1) emptyTreeCommit)
          (cl.getD i emptyTreeCommit) ++
          (commitLoop1 diffOf isf pt cl fuel (i + 1)).1,
        ((if i = 0 then emptyTreeCommit else cl.getD (i - 1) emptyTreeCommit).hash,
          (cl.getD i emptyTreeCommit).hash) ::
          (commitLoop1 diffOf isf pt cl fuel (i + 1)).2)
    else ([], [])

/-- The `n > 1` grouped loop
(`for i = startIndex + groupSize; i < commitList.length; i += groupSize`),
carrying `lastProcessedIndex` as the extra component. -/
def commitLoopN (diffOf : Str → Str → Str) (isf : Str → Str → Bool) (pt : Str)
    (cl : List Commit) (g : Nat) :
    Nat → Nat → Nat → (List DiffRecord × List (Str × Str)) × Nat
  | 0, _, lastIdx => (([], []), lastIdx)
  | fuel + 1, i, lastIdx =>
    if i < cl.length then
      ((diffStep diffOf isf pt (cl.getD (i - g) emptyTreeCommit)
          (cl.getD i emptyTreeCommit) ++
          (commitLoopN diffOf isf pt cl g fuel (i + g) i).1.1,
        ((cl.getD (i - g) emptyTreeCommit).hash, (cl.getD i emptyTreeCommit).hash) ::
          (commitLoopN diffOf isf pt cl g fuel (i + g) i).1.2),
        (commitLoopN diffOf isf pt cl g fuel (i + g) i).2)
    else (([], []), lastIdx)

/-- The trailing `lastProcessedIndex`-to-HEAD comparison, made when the
last grouped index is not the last commit. -/
def commitTailPart (diffOf : Str → Str → Str) (isf : Str → Str → Bool) (pt : Str)
    (cl : List Commit) (lastIdx : Nat) : List DiffRecord × List (Str × Str) :=
  if lastIdx < cl.length - 1 then
    (diffStep diffOf isf pt (cl.getD lastIdx emptyTreeCommit)
        (cl.getD (cl.length - 1) emptyTreeCommit),
      [((cl.getD lastIdx emptyTreeCommit).hash,
        (cl.getD (cl.length - 1) emptyTreeCommit).hash)])
  else ([], [])

/-- The walker on the already-reversed (oldest-first) commit list. -/
def commitWalk (diffOf : Str → Str → Str) (isf : Str → Str → Bool) (pt : Str)
    (cl : List Commit) (groupSize : Nat) : List DiffRecord × List (Str × Str) :=
  if cl.isEmpty then ([], [])
  else if groupSize = 1 then
    commitLoop1 diffOf isf pt cl cl.length 0
  else if cl.length ≤ groupSize then
    (diffStep diffOf isf pt emptyTreeCommit (cl.getD (cl.length - 1) emptyTreeCommit),
      [(EMPTY_TREE_HASH, (cl.getD (cl.length - 1) emptyTreeCommit).hash)])
  else
    (diffStep diffOf isf pt emptyTreeCommit (cl.getD groupSize emptyTreeCommit) ++
        (commitLoopN diffOf isf pt cl groupSize cl.length
          (groupSize + groupSize) groupSize).1.1 ++
        (commitTailPart diffOf isf pt cl
          (commitLoopN diffOf isf pt cl groupSize cl.length
            (groupSize + groupSize) groupSize).2).1,
      (EMPTY_TREE_HASH, (cl.getD groupSize emptyTreeCommit).hash) ::
        ((commitLoopN diffOf isf pt cl groupSize cl.length
          (groupSize + groupSize) groupSize).1.2 ++
          (commitTailPart diffOf isf pt cl
            (commitLoopN diffOf isf pt cl groupSize cl.length
              (groupSize + groupSize) groupSize).2).2))

/-- `getCommitDiffs(git, projectType, groupSize, ...)`: `logAll` is
`commits.all` as `git.log` returns it (newest first); the source
reverses it to oldest-first before walking. -/
def getCommitDiffs (diffOf : Str → Str → Str) (isf : Str → Str → Bool) (pt : Str)
    (logAll : List Commit) (groupSize : Nat) :
    List DiffRecord × List (Str × Str) :=
  commitWalk diffOf isf pt logAll.reverse groupSize

/-! Spec-side comparison schedule for the amended claim C4: for n = 1,
`(emptyTree, commit[0])` then `(commit[i-1], commit[i])` for i = 1, 2, …
while i < total; for n ≥ 2, `(emptyTree, commit[n])` then
`(commit[i-n], commit[i])` for i = 2n, 3n, … while i < total, and a
trailing `(lastGrouped, HEAD)` pair when the last grouped index is not
the last commit. -/

/-- The `i = start, start+g, … while i < total` part of the schedule,
returning the pairs and the last index visited. -/
def pairsSpecMid (hs : List Str) (g : Nat) :
    Nat → Nat → Nat → List (Str × Str) × Nat
  | 0, _, lastIdx => ([], lastIdx)
  | fuel + 1, i, lastIdx =>
    if i < hs.length then
      ((hs.getD (i - g) [], hs.getD i []) :: (pairsSpecMid hs g fuel (i + g) i).1,
        (pairsSpecMid hs g fuel (i + g) i).2)
    else ([], lastIdx)

/-- The full schedule of the amended claim C4 over the oldest-first hash
list. -/
def commitPairsSpec (hs : List Str) (n : Nat) : List (Str × Str) :=
  if n = 1 then
    (EMPTY_TREE_HASH, hs.getD 0 []) :: (pairsSpecMid hs 1 hs.length 1 0).1
  else
    (EMPTY_TREE_HASH, hs.getD n []) ::
      ((pairsSpecMid hs n hs.length (n + n) n).1 ++
        (if (pairsSpecMid hs n hs.length (n + n) n).2 < hs.length - 1 then
          [(hs.getD (pairsSpecMid hs n hs.length (n + n) n).2 [],
            hs.getD (hs.length - 1) [])]
        else []))

theorem hashAt (cl : List Commit) (i : Nat) (h : i < cl.length) :
    (cl.map Commit.hash).getD i [] = (cl.getD i emptyTreeCommit).hash := by
  rw [List.getD_eq_getElem?_getD, List.getD_eq_getElem?_getD]
  rw [List.getElem?_eq_getElem (by simpa using h), List.getElem?_eq_getElem h]
  simp

theorem pairsSpecMid_fuel (hs : List Str) (g : Nat) (hg : 1 ≤ g) :
    ∀ (f₁ f₂ i lastIdx : Nat), hs.length ≤ i + f₁ → hs.length ≤ i + f₂ →
      pairsSpecMid hs g f₁ i lastIdx = pairsSpecMid hs g f₂ i lastIdx := by
  intro f₁
  induction f₁ with
  | zero =>
    intro f₂ i lastIdx h1 h2
    cases f₂ with
    | zero => rfl
    | succ f₂' =>
      rw [pairsSpecMid, pairsSpecMid, if_neg (show ¬ i < hs.length by omega)]
  | succ f ih =>
    intro f₂ i lastIdx h1 h2
    cases f₂ with
    | zero =>
      rw [pairsSpecMid, pairsSpecMid, if_neg (show ¬ i < hs.length by omega)]
    | succ f₂' =>
      by_cases h : i < hs.length
      · rw [pairsSpecMid, pairsSpecMid, if_pos h, if_pos h,
          ih f₂' (i + g) i (by omega) (by omega)]
      · rw [pairsSpecMid, pairsSpecMid, if_neg h, if_neg h]

theorem commitLoop1_trace (diffOf : Str → Str → Str) (isf : Str → Str → Bool)
    (pt : Str) (cl : List Commit) :
    ∀ (fuel i lastIdx : Nat), 1 ≤ i →
      (commitLoop1 diffOf isf pt cl fuel i).2 =
        (pairsSpecMid (cl.map Commit.hash) 1 fuel i lastIdx).1 := by
  intro fuel
  induction fuel with
  | zero => intro i lastIdx _; rfl
  | succ fuel ih =>
    intro i lastIdx hi
    have hne : ¬ i = 0 := by omega
    by_cases h : i < cl.length
    · have hlen : i < (cl.map Commit.hash).length := by simpa using h
      rw [commitLoop1, pairsSpecMid, if_pos h, if_pos hlen]
      simp only [hne, if_false]
      rw [ih (i + 1) i (by omega), hashAt cl i h, hashAt cl (i - 1) (by omega)]
    · rw [commitLoop1, pairsSpecMid, if_neg h,
        if_neg (show ¬ i < (cl.map Commit.hash).length by simpa using h)]

theorem commitLoopN_trace (diffOf : Str → Str → Str) (isf : Str → Str → Bool)
    (pt : Str) (cl : List Commit) (g : Nat) (hg : 1 ≤ g) :
    ∀ (fuel i lastIdx : Nat), g ≤ i → lastIdx < cl.length →
      (commitLoopN diffOf isf pt cl g fuel i lastIdx).1.2 =
          (pairsSpecMid (cl.map Commit.hash) g fuel i lastIdx).1 ∧
        (commitLoopN diffOf isf pt cl g fuel i lastIdx).2 =
          (pairsSpecMid (cl.map Commit.hash) g fuel i lastIdx).2 ∧
        (commitLoopN diffOf isf pt cl g fuel i lastIdx).2 < cl.length := by
  intro fuel
  induction fuel with
  | zero =>
    intro i lastIdx _ hlast
    exact ⟨rfl, rfl, hlast⟩
  | succ fuel ih =>
    intro i lastIdx hgi hlast
    by_cases h : i < cl.length
    · have hlen : i < (cl.map Commit.hash).length := by simpa using h
      obtain ⟨h1, h2, h3⟩ := ih (i + g) i (by omega) h
      rw [commitLoopN, pairsSpecMid, if_pos h, if_pos hlen]
      refine ⟨?_, ?_, ?_⟩
      · simp only
        rw [h1, hashAt cl i h, hashAt cl (i - g) (by omega)]
      · simpa using h2
      · simpa using h3
    · rw [commitLoopN, pairsSpecMid, if_neg h,
        if_neg (show ¬ i < (cl.map Commit.hash).length by simpa using h)]
      exact ⟨rfl, rfl, hlast⟩

/-- Oracles for concrete evaluation of the walkers. -/
def testDiffOf : Str → Str → Str := fun _ _ => str "d"

def testIsSource : Str → Str → Bool := fun _ _ => true

def testPt : Str := str "node"

/-- Claim C4 counterexample: with group size 2 over three commits the
walker issues the single comparison `(emptyTree, commit[2])` — not
`(emptyTree, commit[0])` followed by `(commit[0], commit[2])` as the
claim schedules. -/
theorem getCommitDiffs_first_pair_counterexample :
    (getCommitDiffs testDiffOf testIsSource testPt
        [⟨str "h0", str ""⟩, ⟨str "h1", str ""⟩, ⟨str "h2", str ""⟩].reverse 2).2 =
      [(EMPTY_TREE_HASH, str "h2")] ∧
      (getCommitDiffs testDiffOf testIsSource testPt
        [⟨str "h0", str ""⟩, ⟨str "h1", str ""⟩, ⟨str "h2", str ""⟩].reverse 2).2 ≠
      [(EMPTY_TREE_HASH, str "h0"), (str "h0", str "h2")] := by
  constructor
  · decide
  · decide

/-- Claim C4 (amended): over an oldest-first history with at least `n+1`
commits the walker's comparisons are exactly `commitPairsSpec`: for
n = 1, `(emptyTree, commit[0])` then each commit against its
predecessor; for n ≥ 2, `(emptyTree, commit[n])` — the first n+1 commits
are covered by one empty-tree comparison — then `(commit[i-n],
commit[i])` for i = 2n, 3n, … while i < total, and a trailing
`(lastGrouped, HEAD)` pair when the last grouped index is not the last
commit. -/
theorem getCommitDiffs_schedule (diffOf : Str → Str → Str) (isf : Str → Str → Bool)
    (pt : Str) (commits : List Commit) (n : Nat)
    (h1 : 1 ≤ n) (h2 : n + 1 ≤ commits.length) :
    (getCommitDiffs diffOf isf pt commits.reverse n).2 =
      commitPairsSpec (commits.map Commit.hash) n := by
  rw [getCommitDiffs, List.reverse_reverse, commitWalk]
  have hpos : 0 < commits.length := by omega
  have hnemp : ¬ commits.isEmpty = true := by
    simp only [List.isEmpty_iff]
    intro hc
    rw [hc] at hpos
    simp at hpos
  rw [if_neg hnemp]
  have hlenmap : (commits.map Commit.hash).length = commits.length := by simp
  by_cases hn1 : n = 1
  · subst hn1
    rw [if_pos rfl, commitPairsSpec, if_pos rfl]
    obtain ⟨m, hm⟩ : ∃ m, commits.length = m + 1 := ⟨commits.length - 1, by omega⟩
    rw [hm, commitLoop1, if_pos (show 0 < commits.length by omega)]
    show (emptyTreeCommit.hash, (commits.getD 0 emptyTreeCommit).hash) ::
        (commitLoop1 diffOf isf pt commits m 1).2 = _
    rw [commitLoop1_trace diffOf isf pt commits m 1 0 le_rfl]
    rw [pairsSpecMid_fuel (commits.map Commit.hash) 1 le_rfl m
      (commits.map Commit.hash).length 1 0 (by omega) (by omega)]
    rw [hashAt commits 0 hpos]
    rfl
  · rw [if_neg hn1, if_neg (show ¬ commits.length ≤ n by omega),
      commitPairsSpec, if_neg hn1]
    obtain ⟨t1, t2, t3⟩ := commitLoopN_trace diffOf isf pt commits n h1
      commits.length (n + n) n (by omega) (by omega)
    show (EMPTY_TREE_HASH, (commits.getD n emptyTreeCommit).hash) :: _ = _
    rw [hlenmap]
    rw [t1, t2]
    rw [hashAt commits n (by omega)]
    have hbound : (pairsSpecMid (commits.map Commit.hash) n commits.length
        (n + n) n).2 < commits.length := t2 ▸ t3
    by_cases hc : (pairsSpecMid (commits.map Commit.hash) n commits.length
        (n + n) n).2 < commits.length - 1
    · rw [commitTailPart, if_pos hc, if_pos hc]
      rw [hashAt commits _ hbound, hashAt commits (commits.length - 1) (by omega)]
    · rw [commitTailPart, if_neg hc, if_neg hc]

theorem getCommitDiffs_schedule_witness :
    (getCommitDiffs testDiffOf testIsSource testPt
        [⟨str "h0", str ""⟩, ⟨str "h1", str ""⟩, ⟨str "h2", str ""⟩].reverse 2).2 =
      commitPairsSpec
        ([⟨str "h0", str ""⟩, ⟨str "h1", str ""⟩, ⟨str "h2", str ""⟩].map Commit.hash) 2 :=
  getCommitDiffs_schedule testDiffOf testIsSource testPt
    [⟨str "h0", str ""⟩, ⟨str "h1", str ""⟩, ⟨str "h2", str ""⟩] 2
    (by decide) (by decide)

/-- Claim C5 counterexample: with zero commits the walker performs no
comparison at all (it returns early), not the single (emptyTree, HEAD)
comparison the claim requires. -/
theorem getCommitDiffs_zero_commits_counterexample :
    (getCommitDiffs testDiffOf testIsSource testPt [] 1).2 = [] ∧
      (getCommitDiffs testDiffOf testIsSource testPt [] 1).2.length ≠ 1 := by
  constructor
  · decide
  · decide

/-- Claim C5 (amended): with at least one commit but fewer than `n+1`,
the walker performs exactly one comparison, (emptyTree, HEAD); with zero
commits it performs none. -/
theorem getCommitDiffs_few (diffOf : Str → Str → Str) (isf : Str → Str → Bool)
    (pt : Str) (commits : List Commit) (n : Nat)
    (h1 : 1 ≤ n) (hne : commits ≠ []) (hfew : commits.length < n + 1) :
    (getCommitDiffs diffOf isf pt commits.reverse n).2 =
      [(EMPTY_TREE_HASH, (commits.getLast hne).hash)] := by
  rw [getCommitDiffs, List.reverse_reverse, commitWalk]
  have hpos : 0 < commits.length := List.length_pos.2 hne
  have hnemp : ¬ commits.isEmpty = true := by
    simp only [List.isEmpty_iff]
    intro hc
    rw [hc] at hpos
    simp at hpos
  rw [if_neg hnemp]
  by_cases hn1 : n = 1
  · subst hn1
    have hone : commits.length = 1 := by omega
    obtain ⟨c, rfl⟩ := List.length_eq_one.1 hone
    rw [if_pos rfl]
    simp [commitLoop1, emptyTreeCommit]
  · rw [if_neg hn1, if_pos (by omega)]
    have hgd : commits.getD (commits.length - 1) emptyTreeCommit =
        commits.getLast hne := by
      rw [List.getD_eq_getElem?_getD, List.getElem?_eq_getElem (by omega),
        List.getLast_eq_getElem]
      simp
    rw [hgd]

theorem getCommitDiffs_few_witness :
    (getCommitDiffs testDiffOf testIsSource testPt [⟨str "h0", str ""⟩].reverse 2).2 =
      [(EMPTY_TREE_HASH, (([⟨str "h0", str ""⟩] : List Commit).getLast (by decide)).hash)] :=
  getCommitDiffs_few testDiffOf testIsSource testPt [⟨str "h0", str ""⟩] 2
    (by decide) (by decide) (by decide)

/-! ## History Walker, tag mode: `getTagDiffs`
(src/services/git-service.js lines 459-554)

`git.diff` is the oracle `diffOf` and, as in commit mode, the returned
second component is the ordered trace of `git.diff` invocations.
`dateOf` stands for the composite of `git.show` and the `Date:` header
parse, both external.  An absent or falsy `fromTag` is `none`. -/

/-- `{ name, date }` as pushed into `sortedTags`. -/
structure TagInfo where
  name : Str
  date : Int
deriving DecidableEq

/-- One element of the tag walker's result. -/
structure TagRecord where
  fromTag : Str
  toTag : Str
  date : Int
  diff : Str
deriving DecidableEq

/-- JavaScript `sortedTags.sort((a, b) => a.date - b.date)`: a stable
ascending sort by date. -/
def sortTagsByDate (tags : List TagInfo) : List TagInfo :=
  List.insertionSort (fun a b => a.date ≤ b.date) tags

/-- The consecutive-tags loop
(`for i = startIndex; i < sortedTags.length - 1; i++`), expressed over
the dropped prefix. -/
def consecTagPairs (diffOf : Str → Str → Str) (isf : Str → Str → Bool) (pt : Str) :
    List TagInfo → List TagRecord × List (Str × Str)
  | a :: b :: rest =>
    ((if filterSourceFiles isf (diffOf a.name b.name) pt ≠ [] then
        [⟨a.name, b.name, b.date, filterSourceFiles isf (diffOf a.name b.name) pt⟩]
      else []) ++ (consecTagPairs diffOf isf pt (b :: rest)).1,
      (a.name, b.name) :: (consecTagPairs diffOf isf pt (b :: rest)).2)
  | _ => ([], [])

/-- The leading empty-tree-to-first-tag comparison, made only when no
starting tag was requested. -/
def tagFirstPart (diffOf : Str → Str → Str) (isf : Str → Str → Bool) (pt : Str) :
    List TagInfo → List TagRecord × List (Str × Str)
  | [] => ([], [])
  | ft :: _ =>
    ((if filterSourceFiles isf (diffOf EMPTY_TREE_HASH ft.name) pt ≠ [] then
        [⟨str "empty-tree", ft.name, ft.date,
          filterSourceFiles isf (diffOf EMPTY_TREE_HASH ft.name) pt⟩]
      else []),
      [(EMPTY_TREE_HASH, ft.name)])

/-- The trailing last-tag-to-HEAD comparison, made whenever tags exist. -/
def tagLastPart (diffOf : Str → Str → Str) (isf : Str → Str → Bool) (pt : Str)
    (nowDate : Int) : List TagInfo → List TagRecord × List (Str × Str)
  | [] => ([], [])
  | t :: ts =>
    ((if filterSourceFiles isf
          (diffOf ((t :: ts).getLast (List.cons_ne_nil t ts)).name (str "HEAD")) pt ≠ [] then
        [⟨((t :: ts).getLast (List.cons_ne_nil t ts)).name, str "HEAD", nowDate,
          filterSourceFiles isf
            (diffOf ((t :: ts).getLast (List.cons_ne_nil t ts)).name (str "HEAD")) pt⟩]
      else []),
      [(((t :: ts).getLast (List.cons_ne_nil t ts)).name, str "HEAD")])

/-- `getTagDiffs(git, projectType, fromTag)` from
src/services/git-service.js lines 459-554, returning the result (or the
thrown not-found error) together with the trace of `git.diff`
invocations. -/
def getTagDiffs (diffOf : Str → Str → Str) (dateOf : Str → Int)
    (isf : Str → Str → Bool) (pt : Str) (tagsAll : List Str)
    (fromTag : Option Str) (nowDate : Int) :
    Except Str (List TagRecord) × List (Str × Str) :=
  if tagsAll.isEmpty && fromTag.isNone then
    (Except.ok
      (if filterSourceFiles isf (diffOf EMPTY_TREE_HASH (str "HEAD")) pt ≠ [] then
        [⟨str "empty-tree", str "HEAD", nowDate,
          filterSourceFiles isf (diffOf EMPTY_TREE_HASH (str "HEAD")) pt⟩]
      else []),
      [(EMPTY_TREE_HASH, str "HEAD")])
  else
    match fromTag with
    | some ft =>
      match (sortTagsByDate (tagsAll.map (fun tn => ⟨tn, dateOf tn⟩))).findIdx?
          (fun tag => tag.name == ft) with
      | none => (Except.error (str "Tag '" ++ ft ++ str "' not found"), [])
      | some startIndex =>
        (Except.ok
          ((consecTagPairs diffOf isf pt
              ((sortTagsByDate (tagsAll.map (fun tn => ⟨tn, dateOf tn⟩))).drop
                startIndex)).1 ++
            (tagLastPart diffOf isf pt nowDate
              (sortTagsByDate (tagsAll.map (fun tn => ⟨tn, dateOf tn⟩)))).1),
          (consecTagPairs diffOf isf pt
              ((sortTagsByDate (tagsAll.map (fun tn => ⟨tn, dateOf tn⟩))).drop
                startIndex)).2 ++
            (tagLastPart diffOf isf pt nowDate
              (sortTagsByDate (tagsAll.map (fun tn => ⟨tn, dateOf tn⟩)))).2)
    | none =>
      (Except.ok
        ((tagFirstPart diffOf isf pt
            (sortTagsByDate (tagsAll.map (fun tn => ⟨tn, dateOf tn⟩)))).1 ++
          (consecTagPairs diffOf isf pt
            (sortTagsByDate (tagsAll.map (fun tn => ⟨tn, dateOf tn⟩)))).1 ++
          (tagLastPart diffOf isf pt nowDate
            (sortTagsByDate (tagsAll.map (fun tn => ⟨tn, dateOf tn⟩)))).1),
        (tagFirstPart diffOf isf pt
            (sortTagsByDate (tagsAll.map (fun tn => ⟨tn, dateOf tn⟩)))).2 ++
          (consecTagPairs diffOf isf pt
            (sortTagsByDate (tagsAll.map (fun tn => ⟨tn, dateOf tn⟩)))).2 ++
          (tagLastPart diffOf isf pt nowDate
            (sortTagsByDate (tagsAll.map (fun tn => ⟨tn, dateOf tn⟩)))).2)

/-- Claim C8: requesting tag mode with a starting tag that is not among
the existing tags fails with the not-found error naming that tag, and no
`git.diff` comparison is issued. -/
theorem getTagDiffs_notFound (diffOf : Str → Str → Str) (dateOf : Str → Int)
    (isf : Str → Str → Bool) (pt : Str) (tagsAll : List Str) (t : Str)
    (now : Int) (h : t ∉ tagsAll) :
    getTagDiffs diffOf dateOf isf pt tagsAll (some t) now =
      (Except.error (str "Tag '" ++ t ++ str "' not found"), []) := by
  rw [getTagDiffs]
  rw [if_neg (show ¬ (tagsAll.isEmpty && (some t).isNone) = true by simp)]
  have hfind : (sortTagsByDate (tagsAll.map (fun tn => ⟨tn, dateOf tn⟩))).findIdx?
      (fun tag => tag.name == t) = none := by
    rw [List.findIdx?_eq_none_iff]
    intro tag htag
    have hperm : List.Perm
        (sortTagsByDate (tagsAll.map (fun tn => (⟨tn, dateOf tn⟩ : TagInfo))))
        (tagsAll.map (fun tn => (⟨tn, dateOf tn⟩ : TagInfo))) :=
      List.perm_insertionSort _ _
    have hmem : tag ∈ tagsAll.map (fun tn => (⟨tn, dateOf tn⟩ : TagInfo)) :=
      hperm.mem_iff.1 htag
    obtain ⟨tn, htn, rfl⟩ := List.mem_map.1 hmem
    simp only [beq_eq_false_iff_ne, ne_eq]
    intro heq
    exact h (heq ▸ htn)
  rw [hfind]

theorem getTagDiffs_notFound_witness :
    (str "v2") ∉ [str "v1"] ∧
      getTagDiffs testDiffOf (fun _ => 0) testIsSource testPt [str "v1"]
          (some (str "v2")) 0 =
        (Except.error (str "Tag '" ++ str "v2" ++ str "' not found"), []) :=
  ⟨by decide,
    getTagDiffs_notFound testDiffOf (fun _ => 0) testIsSource testPt [str "v1"]
      (str "v2") 0 (by decide)⟩

/-! ## Model Gateway chat-stream accumulation
(`_processChatStream`, src/unnamed/part_003 lines 161-170)

The NDJSON framing (network reads, buffering, `JSON.parse`) is external;
the accumulation is modelled as a fold of `_processChatStream` over the
sequence of successfully parsed fragments, exactly as `_processStream`
applies it. -/

/-- A parsed chat-mode stream fragment: `content` is
`parsed.message?.content || ''` and `done` is `parsed.done` (with the
absent field modelled as `false`). -/
structure ChatFragment where
  content : Str
  done : Bool
deriving DecidableEq

/-- `_processChatStream(parsed, currentText)`: append the fragment's
content when it is non-empty and the fragment is not final. -/
def processChatStream (parsed : ChatFragment) (currentText : Str) : Str :=
  if parsed.content ≠ [] ∧ parsed.done = false then
    currentText ++ parsed.content
  else
    currentText

/-- The accumulated `fullText` over a parsed chat stream. -/
def chatAccumulate (frags : List ChatFragment) : Str :=
  frags.foldl (fun cur f => processChatStream f cur) []

/-- Claim C6 counterexample: on two non-final fragments with distinct
non-empty contents the chat accumulator returns their concatenation, not
the last content alone. -/
theorem chatAccumulate_counterexample :
    chatAccumulate [⟨str "A", false⟩, ⟨str "B", false⟩] = str "AB" ∧
      chatAccumulate [⟨str "A", false⟩, ⟨str "B", false⟩] ≠ str "B" := by
  constructor
  · decide
  · decide

theorem chatAccumulate_foldl (frags : List ChatFragment) :
    ∀ cur : Str,
      frags.foldl (fun cur f => processChatStream f cur) cur =
        cur ++ ((frags.filter fun f => !f.content.isEmpty && !f.done).map
          (·.content)).flatten := by
  induction frags with
  | nil => intro cur; simp
  | cons f rest ih =>
    intro cur
    rw [List.foldl_cons, List.filter_cons]
    by_cases hc : f.content = []
    · have : (!f.content.isEmpty && !f.done) = false := by
        simp [List.isEmpty_iff, hc]
      rw [this]
      simp only [Bool.false_eq_true, if_false]
      rw [ih]
      simp [processChatStream, hc]
    · by_cases hd : f.done = false
      · have : (!f.content.isEmpty && !f.done) = true := by
          simp [List.isEmpty_iff, hc, hd]
        rw [this]
        simp only [if_true]
        rw [ih]
        simp [processChatStream, hc, hd, List.append_assoc]
      · have : (!f.content.isEmpty && !f.done) = false := by
          simp only [Bool.not_eq_false] at hd
          simp [hd]
        rw [this]
        simp only [Bool.false_eq_true, if_false]
        rw [ih]
        simp [processChatStream, hd]

/-- Claim C6 (amended): chat accumulation concatenates, in order, the
contents of every non-final fragment with non-empty content (query-style
concatenation), rather than keeping only the latest one; final fragments
contribute nothing. -/
theorem chatAccumulate_concatenates (frags : List ChatFragment) :
    chatAccumulate frags =
      ((frags.filter fun f => !f.content.isEmpty && !f.done).map
        (·.content)).flatten := by
  rw [chatAccumulate, chatAccumulate_foldl frags []]
  rfl

/-! ## Document update: `updateDoc` (src/unnamed/part_001 lines 167-215)

The model endpoint is external: `chat` is passed in as an oracle
`chatOf`, and the returned trace lists the message sequences of every
`chat` call issued, so that "performs no model call" is statable. -/

/-- A chat message `{ role, content }`. -/
structure Msg where
  role : Str
  content : Str
deriving DecidableEq

/-- The system prompt fixed by `updateDoc`. -/
def updateDocSystemPrompt (lang : Str) : Str :=
  str "You are a documentation assistant. The User will provide an existing document and new features in chunks. After each chunk, repeat the following process:\n1. Maintain the original document's structure, style, and organization.\n2. Update the document by incorporating new content based on existing content.\n3. Preserve the original markdown formatting.\n4. Ensure consistent formatting and language throughout.\n5. Do not remove or significantly alter existing content.\n6. Do not add new sections unless absolutely necessary.\n7. Respond in " ++
    lang ++
    str ".\n8. Do not offer additional help, suggestions, explanations, or clarifications.\n"

/-- The first user turn of `updateDoc`. -/
def updateDocFirstPrompt (text : Str) (chunk : List Str) : Str :=
  str "Here is the original document:\n\n" ++ text ++
    str "\n\nAnd here are new features to incorporate:\n\n" ++
    List.intercalate [nl] chunk ++
    str "\n\nPlease update the document while maintaining its structure."

/-- Every later user turn of `updateDoc`. -/
def updateDocMorePrompt (chunk : List Str) (updatedDoc : Str) : Str :=
  str "Here are more features to incorporate:\n\n" ++
    List.intercalate [nl] chunk ++
    str "\n\nPlease update the current version:\n\n" ++ updatedDoc

/-- The fold over chunks inside `updateDoc`: carries the loop index, the
running document and the mutable `messages` array, and records every
argument passed to `chat`. -/
def updateDocGo (chatOf : List Msg → Str) (text : Str) :
    List (List Str) → Nat → Str → List Msg → Str × List (List Msg)
  | [], _, updatedDoc, _ => (updatedDoc, [])
  | chunk :: rest, i, updatedDoc, messages =>
    let promptContent :=
      if i = 0 then updateDocFirstPrompt text chunk
      else updateDocMorePrompt chunk updatedDoc
    let messages1 := messages ++ [⟨str "user", promptContent⟩]
    let response := chatOf messages1
    let messages2 := messages1.take 1 ++
      [⟨str "user", promptContent⟩, ⟨str "assistant", response⟩]
    let (doc, calls) := updateDocGo chatOf text rest (i + 1) response messages2
    (doc, messages1 :: calls)

/-- `updateDoc(text, features)` from src/unnamed/part_001, returning the
resulting document together with the trace of `chat` calls. -/
def updateDoc (chatOf : List Msg → Str) (lang : Str) (text : Str)
    (features : List Str) : Str × List (List Msg) :=
  let validFeatures := features.filter fun f => !f.isEmpty && !(trimStr f).isEmpty
  if validFeatures.length = 0 then
    (text, [])
  else
    let chunks := groupBySize validFeatures 4000 (fun s => (s.length : Int))
    let messages : List Msg := [⟨str "system", updateDocSystemPrompt lang⟩]
    let (doc, calls) := updateDocGo chatOf text chunks 0 text messages
    (trimStr doc, calls)

/-- Claim C9: when every feature is blank (in particular when the feature
list is empty), `updateDoc` returns the document unchanged and performs
no model call. -/
theorem updateDoc_blank_identity (chatOf : List Msg → Str) (lang text : Str)
    (features : List Str) (h : ∀ f ∈ features, trimStr f = []) :
    updateDoc chatOf lang text features = (text, []) := by
  rw [updateDoc]
  have hfil : features.filter (fun f => !f.isEmpty && !(trimStr f).isEmpty) = [] := by
    rw [List.filter_eq_nil_iff]
    intro f hf
    simp [List.isEmpty_iff, h f hf]
  rw [hfil]
  rfl

theorem updateDoc_blank_identity_witness :
    (∀ f ∈ [str "", str "  "], trimStr f = []) ∧
      updateDoc (fun _ => str "changed") (str "English") (str "doc text")
        [str "", str "  "] = (str "doc text", []) :=
  ⟨by decide,
    updateDoc_blank_identity (fun _ => str "changed") (str "English") (str "doc text")
      [str "", str "  "] (by decide)⟩

end GitToText
